import Mathlib

/-!
Shallow embedding of the maigacha selection engine (src/maigacha.rs) and
proofs of the specification claims.

Modelling conventions:
* `f64` weights (`chance`) are modelled as exact rationals `ℚ`.
* `DateTime<Local>` timestamps are modelled as abstract integer ticks, and
  `Local::now()` becomes an explicitly injected `now : Int` argument.
* The random source (`rand::thread_rng`) is injected: `tierRoll` stands for
  `rng.gen_range(0..self.rare_rarity)` and `select` for
  `rng.gen_range(0.0_f64..pulls_sum)`.  Theorems constrain these inputs with
  the hypotheses the sampled values satisfy (`tierRoll < rare_rarity`,
  `0 ≤ select < pulls_sum`).
* `pull` takes `&mut self` in Rust; here it returns the result together with
  the new state.  Rust panics (`gen_range` on an empty range, `unreachable!`)
  become explicit error values of `PullError`.
-/

namespace Maigacha

/-- `PullType` from maigacha.rs: the closed two-valued tier classification. -/
inductive PullType where
  | Common
  | Rare
deriving DecidableEq

/-- `Pull` from maigacha.rs: one catalog item (name, tier, weight). -/
structure Pull where
  name : String
  pull_type : PullType
  chance : ℚ
deriving DecidableEq

/-- `PullHistory` from maigacha.rs: the bounded recency buffer.  The
`VecDeque` is modelled as a list whose head is the deque front (oldest). -/
structure PullHistory where
  history : List (Int × PullType × String)
  size : Nat
deriving DecidableEq

/-- `PullHistory::new(size)`. -/
def PullHistory.new (size : Nat) : PullHistory :=
  { history := [], size := size }

/-- `PullHistory::update`: push the record at the back, then pop the front
when the resulting length reaches or exceeds `size`. -/
def PullHistory.update (h : PullHistory) (pull_type : PullType) (name : String)
    (now : Int) : PullHistory :=
  let pushed := h.history ++ [(now, pull_type, name)]
  if h.size ≤ pushed.length then
    { history := pushed.drop 1, size := h.size }
  else
    { history := pushed, size := h.size }

/-- `PullHistory::contains`: does any stored record carry the given tier? -/
def PullHistory.contains (h : PullHistory) (pull_type : PullType) : Bool :=
  h.history.any fun r => r.2.1 == pull_type

/-- `PullList` from maigacha.rs: the catalog. -/
structure PullList where
  list : List Pull
  pull_history : PullHistory
  rare_rarity : Nat
deriving DecidableEq

/-- `PullList::new()`: empty catalog, window capacity 35, pity denominator 100. -/
def PullList.new : PullList :=
  { list := [], pull_history := PullHistory.new 35, rare_rarity := 100 }

/-- `PullList::insert`: append the entry at the end. -/
def PullList.insert (pl : PullList) (pull : Pull) : PullList :=
  { pl with list := pl.list ++ [pull] }

/-- `PullList::remove`: find the position of the first entry with the given
name and remove it, returning the removed entry; otherwise `none` with the
catalog untouched. -/
def PullList.remove (pl : PullList) (name : String) : Option Pull × PullList :=
  match pl.list.findIdx? (fun pull => pull.name == name) with
  | some index => (pl.list[index]?, { pl with list := pl.list.eraseIdx index })
  | none => (none, pl)

/-- The partition of `pl.list` into `(common, rare)` from the body of
`PullList::pull` (and `print_list`), preserving relative order. -/
def PullList.commonRare (pl : PullList) : List Pull × List Pull :=
  pl.list.partition fun pull =>
    match pull.pull_type with
    | PullType.Common => true
    | PullType.Rare => false

/-- The tier-selection condition of `PullList::pull` (lines 147–151):
`!rare.is_empty() && (common.is_empty() || roll == 0 || !history.contains(Rare))`,
with the sampled `rng.gen_range(0..rare_rarity)` injected as `tierRoll`. -/
def PullList.chooseRare (pl : PullList) (tierRoll : Nat) : Bool :=
  !pl.commonRare.2.isEmpty &&
    (pl.commonRare.1.isEmpty || tierRoll == 0 ||
      !pl.pull_history.contains PullType.Rare)

/-- Sum of the `chance` weights of a list of pulls. -/
def chanceSum (pulls : List Pull) : ℚ :=
  (pulls.map fun pull => pull.chance).sum

/-- The subset bound to `pulls` by the tier selection of `PullList::pull`
(lines 147–155): `rare` when the pity condition fires, else `common`. -/
def PullList.chosenPulls (pl : PullList) (tierRoll : Nat) : List Pull :=
  if pl.chooseRare tierRoll then pl.commonRare.2 else pl.commonRare.1

/-- The tier bound to `pulled_type` by the tier selection of
`PullList::pull` (lines 147–155). -/
def PullList.chosenType (pl : PullList) (tierRoll : Nat) : PullType :=
  if pl.chooseRare tierRoll then PullType.Rare else PullType.Common

/-- Outcomes of `PullList::pull` other than a drawn entry.  `emptyCatalog`
is the early `return None`; `invariantViolation` is the panic of
`rng.gen_range(0.0..pulls_sum)` when the range is empty (`pulls_sum ≤ 0`);
`pityRangePanic` is the panic of `rng.gen_range(0..rare_rarity)` when
`rare_rarity = 0`; `unreachableState` is the `unreachable!()` after the
sampling loop. -/
inductive PullError where
  | emptyCatalog
  | pityRangePanic
  | invariantViolation
  | unreachableState
deriving DecidableEq

/-- The cumulative-weight loop of `PullList::pull` (lines 160–166):
`curr_chance += pull.chance; if curr_chance > select { return pull }`. -/
def walk (select : ℚ) : List Pull → ℚ → Option Pull
  | [], _ => none
  | pull :: rest, curr_chance =>
    if curr_chance + pull.chance > select then some pull
    else walk select rest (curr_chance + pull.chance)

/-- The sampling stage of `PullList::pull` (lines 157–167) on the already
selected subset: sample `select` from `[0, pulls_sum)` (a panic — modelled as
`invariantViolation` — when the range is empty), walk the subset, update the
history on success; the fall-through is `unreachable!()`. -/
def samplePull (pl : PullList) (pulls : List Pull) (pulled_type : PullType)
    (select : ℚ) (now : Int) : Except PullError Pull × PullList :=
  if chanceSum pulls ≤ 0 then (Except.error PullError.invariantViolation, pl)
  else
    match walk select pulls 0 with
    | some p =>
      (Except.ok p,
        { pl with pull_history := pl.pull_history.update pulled_type p.name now })
    | none => (Except.error PullError.unreachableState, pl)

/-- `PullList::pull` with the two random samples and the clock injected.  The
pity-roll `rng.gen_range(0..self.rare_rarity)` is evaluated exactly when
`rare` and `common` are both non-empty (short-circuiting of `&&`/`||`), so it
panics in that situation when `rare_rarity = 0`. -/
def PullList.pull (pl : PullList) (tierRoll : Nat) (select : ℚ) (now : Int) :
    Except PullError Pull × PullList :=
  if pl.list.isEmpty then (Except.error PullError.emptyCatalog, pl)
  else if !pl.commonRare.2.isEmpty && !pl.commonRare.1.isEmpty &&
      pl.rare_rarity == 0 then
    (Except.error PullError.pityRangePanic, pl)
  else
    samplePull pl (pl.chosenPulls tierRoll) (pl.chosenType tierRoll) select now

/-- The record pushed by `PullHistory::update` for an update request
`(tier, name, now)`: the stored tuple order is `(timestamp, tier, name)`. -/
def mkRecord (u : PullType × String × Int) : Int × PullType × String :=
  (u.2.2, u.1, u.2.1)

/-- A sequence of `PullHistory::update` calls, oldest first. -/
def PullHistory.applyUpdates (h : PullHistory) :
    List (PullType × String × Int) → PullHistory
  | [] => h
  | u :: rest => PullHistory.applyUpdates (h.update u.1 u.2.1 u.2.2) rest

theorem PullHistory.applyUpdates_append (h : PullHistory)
    (us vs : List (PullType × String × Int)) :
    h.applyUpdates (us ++ vs) = (h.applyUpdates us).applyUpdates vs := by
  induction us generalizing h with
  | nil => rfl
  | cons u rest ih => simp [PullHistory.applyUpdates, ih]

theorem PullHistory.size_update (h : PullHistory) (pull_type : PullType)
    (name : String) (now : Int) : (h.update pull_type name now).size = h.size := by
  rw [PullHistory.update]
  split <;> rfl

/-- Closed form of the window reached from an empty buffer: after the update
sequence `us`, the buffer holds exactly the records of the last
`min (us.length) (c - 1)` updates, in order. -/
theorem PullHistory.applyUpdates_new (c : Nat)
    (us : List (PullType × String × Int)) :
    ((PullHistory.new c).applyUpdates us).size = c ∧
      ((PullHistory.new c).applyUpdates us).history =
        (us.map mkRecord).drop (us.length - (c - 1)) := by
  induction us using List.reverseRecOn with
  | nil => exact ⟨rfl, by simp [PullHistory.applyUpdates, PullHistory.new]⟩
  | append_singleton us u ih =>
    obtain ⟨hsize, hhist⟩ := ih
    have hupd : (PullHistory.new c).applyUpdates (us ++ [u]) =
        ((PullHistory.new c).applyUpdates us).update u.1 u.2.1 u.2.2 := by
      rw [PullHistory.applyUpdates_append]
      rfl
    rw [hupd, PullHistory.update, hsize, hhist]
    have hmk : (u.2.2, u.1, u.2.1) = mkRecord u := rfl
    rw [hmk]
    have hlenA : ((us.map mkRecord).drop (us.length - (c - 1))).length =
        us.length - (us.length - (c - 1)) := by
      rw [List.length_drop, List.length_map]
    constructor
    · split <;> rfl
    · rcases Nat.lt_or_ge (us.length + 1) c with hcase | hcase
      · -- no eviction: the pushed buffer is still shorter than the capacity
        have hk0 : us.length - (c - 1) = 0 := by omega
        rw [if_neg (by rw [List.length_append, hlenA]; simp; omega)]
        simp only [hk0, List.drop_zero, List.map_append, List.length_append,
          List.length_cons, List.length_nil]
        have hk1 : us.length + 1 - (c - 1) = 0 := by omega
        rw [hk1, List.drop_zero]
        rfl
      · -- eviction: the front record is dropped
        have hle : c - 1 ≤ us.length := by omega
        rw [if_pos (by rw [List.length_append, hlenA]; simp; omega)]
        simp only [List.map_append, List.length_append, List.length_cons,
          List.length_nil, List.map_cons, List.map_nil]
        have hk1 : us.length + 1 - (c - 1) = (us.length - (c - 1)) + 1 := by
          omega
        rw [hk1]
        rcases Nat.eq_zero_or_pos (c - 1) with hc1 | hc1
        · have hA : (us.map mkRecord).drop (us.length - (c - 1)) = [] := by
            apply List.drop_eq_nil_of_le
            rw [List.length_map]
            omega
          have hB : (us.map mkRecord ++ [mkRecord u]).drop
              ((us.length - (c - 1)) + 1) = [] := by
            apply List.drop_eq_nil_of_le
            rw [List.length_append, List.length_map]
            simp
            omega
          rw [hA, hB]
          rfl
        · have hAlen : 1 ≤
              ((us.map mkRecord).drop (us.length - (c - 1))).length := by
            rw [hlenA]
            omega
          have hBlen : us.length - (c - 1) + 1 ≤ (us.map mkRecord).length := by
            rw [List.length_map]
            omega
          rw [List.drop_append_of_le_length hAlen,
            List.drop_append_of_le_length hBlen, List.drop_drop]

/-- C3 counterexample: with capacity 2, after 2 + 1 = 3 updates on an
initially empty window the buffer length is 1, not 2 as the claim states. -/
theorem spec_C3_cex :
    ¬ ((((PullHistory.new 2).update PullType.Common "a" 0).update
        PullType.Common "b" 1).update PullType.Common "c" 2).history.length
      = 2 := by
  decide

/-- C3 (amended): the HistoryWindow never holds more than `capacity`
records, and for `capacity ≥ 1`, after exactly `capacity + 1` updates on an
initially empty window the first record inserted has been evicted (only the
records of the last `capacity - 1` updates remain, in order) and the buffer
length equals `capacity - 1`. -/
theorem spec_C3 (c : Nat) (hc : 1 ≤ c) (us : List (PullType × String × Int))
    (hlen : us.length = c + 1) :
    ((PullHistory.new c).applyUpdates us).history = (us.map mkRecord).drop 2 ∧
      ((PullHistory.new c).applyUpdates us).history.length = c - 1 ∧
      ∀ vs : List (PullType × String × Int),
        ((PullHistory.new c).applyUpdates vs).history.length ≤ c := by
  have h := (PullHistory.applyUpdates_new c us).2
  refine ⟨?_, ?_, ?_⟩
  · rw [h, hlen]
    have : c + 1 - (c - 1) = 2 := by omega
    rw [this]
  · rw [h, List.length_drop, List.length_map]
    omega
  · intro vs
    have h2 := (PullHistory.applyUpdates_new c vs).2
    rw [h2, List.length_drop, List.length_map]
    omega

theorem spec_C3_witness :
    ((PullHistory.new 2).applyUpdates
        [(PullType.Common, "a", 0), (PullType.Rare, "b", 1),
          (PullType.Common, "c", 2)]).history =
      ([(PullType.Common, "a", 0), (PullType.Rare, "b", 1),
          (PullType.Common, "c", 2)].map mkRecord).drop 2 ∧
      ((PullHistory.new 2).applyUpdates
        [(PullType.Common, "a", 0), (PullType.Rare, "b", 1),
          (PullType.Common, "c", 2)]).history.length = 2 - 1 ∧
      ∀ vs : List (PullType × String × Int),
        ((PullHistory.new 2).applyUpdates vs).history.length ≤ 2 :=
  spec_C3 2 (by decide)
    [(PullType.Common, "a", 0), (PullType.Rare, "b", 1),
      (PullType.Common, "c", 2)] rfl

/-- C10: for every window capacity `size ≥ 1`, along any update sequence
from the initial empty window the buffer length stays at most `size - 1`:
the oldest record is evicted as soon as the length reaches the capacity, so
a buffer holding exactly `size` records is never observable between
operations, and the pity rule scans at most `size - 1` recent draws. -/
theorem spec_C10 (c : Nat) (hc : 1 ≤ c)
    (us : List (PullType × String × Int)) :
    ((PullHistory.new c).applyUpdates us).history.length ≤ c - 1 := by
  have h := (PullHistory.applyUpdates_new c us).2
  rw [h, List.length_drop, List.length_map]
  omega

theorem spec_C10_witness :
    ((PullHistory.new 2).applyUpdates
        [(PullType.Common, "a", 0), (PullType.Rare, "b", 1),
          (PullType.Rare, "c", 2)]).history.length ≤ 2 - 1 :=
  spec_C10 2 (by decide)
    [(PullType.Common, "a", 0), (PullType.Rare, "b", 1),
      (PullType.Rare, "c", 2)]

theorem mem_commonRare_fst {pl : PullList} {p : Pull}
    (hp : p ∈ pl.commonRare.1) :
    p ∈ pl.list ∧ p.pull_type = PullType.Common := by
  rw [PullList.commonRare, List.partition_eq_filter_filter] at hp
  have hp2 := List.mem_filter.mp hp
  refine ⟨hp2.1, ?_⟩
  have := hp2.2
  cases h : p.pull_type <;> simp [h] at this ⊢

theorem mem_commonRare_snd {pl : PullList} {p : Pull}
    (hp : p ∈ pl.commonRare.2) :
    p ∈ pl.list ∧ p.pull_type = PullType.Rare := by
  rw [PullList.commonRare, List.partition_eq_filter_filter] at hp
  simp only [List.mem_filter, Function.comp] at hp
  refine ⟨hp.1, ?_⟩
  have := hp.2
  cases h : p.pull_type <;> simp [h] at this ⊢

theorem commonRare_snd_nil {pl : PullList} (h : pl.commonRare.2 = []) :
    pl.commonRare.1 = pl.list := by
  rw [PullList.commonRare, List.partition_eq_filter_filter] at h ⊢
  simp only at h ⊢
  rw [List.filter_eq_self]
  rw [List.filter_eq_nil_iff] at h
  intro a ha
  simpa [Function.comp] using h a ha

theorem chooseRare_iff (pl : PullList) (tierRoll : Nat) :
    pl.chooseRare tierRoll = true ↔
      (pl.commonRare.2 ≠ [] ∧ (pl.commonRare.1 = [] ∨ tierRoll = 0 ∨
        pl.pull_history.contains PullType.Rare = false)) := by
  rw [PullList.chooseRare]
  simp [List.isEmpty_iff, List.isEmpty_eq_false, Bool.not_eq_true', or_assoc]

theorem chosenPulls_ne_nil {pl : PullList} (tierRoll : Nat)
    (hne : pl.list ≠ []) : pl.chosenPulls tierRoll ≠ [] := by
  rw [PullList.chosenPulls]
  by_cases hc : pl.chooseRare tierRoll
  · rw [if_pos hc]
    exact ((chooseRare_iff pl tierRoll).mp hc).1
  · rw [if_neg hc]
    by_cases hrare : pl.commonRare.2 = []
    · rw [commonRare_snd_nil hrare]
      exact hne
    · intro hcommon
      exact hc ((chooseRare_iff pl tierRoll).mpr ⟨hrare, Or.inl hcommon⟩)

theorem mem_chosenPulls {pl : PullList} {tierRoll : Nat} {p : Pull}
    (hp : p ∈ pl.chosenPulls tierRoll) : p ∈ pl.list := by
  rw [PullList.chosenPulls] at hp
  by_cases hc : pl.chooseRare tierRoll
  · rw [if_pos hc] at hp
    exact (mem_commonRare_snd hp).1
  · rw [if_neg hc] at hp
    exact (mem_commonRare_fst hp).1

theorem chanceSum_cons (p : Pull) (rest : List Pull) :
    chanceSum (p :: rest) = p.chance + chanceSum rest := by
  simp [chanceSum]

theorem chanceSum_pos {pulls : List Pull} (hne : pulls ≠ [])
    (hw : ∀ p ∈ pulls, 0 < p.chance) : 0 < chanceSum pulls := by
  cases pulls with
  | nil => exact absurd rfl hne
  | cons q rest =>
    have h1 : 0 < q.chance := hw q (List.mem_cons_self _ _)
    have h2 : 0 ≤ chanceSum rest := by
      apply List.sum_nonneg
      intro x hx
      simp only [List.mem_map] at hx
      obtain ⟨p, hmem, rfl⟩ := hx
      exact le_of_lt (hw p (List.mem_cons_of_mem _ hmem))
    rw [chanceSum_cons]
    linarith

theorem walk_mem {select : ℚ} {pulls : List Pull} {curr : ℚ} {p : Pull}
    (h : walk select pulls curr = some p) : p ∈ pulls := by
  induction pulls generalizing curr with
  | nil => exact absurd h (by simp [walk])
  | cons q rest ih =>
    rw [walk] at h
    split at h
    · cases h
      exact List.mem_cons_self _ _
    · exact List.mem_cons_of_mem _ (ih h)

theorem walk_isSome {select : ℚ} {pulls : List Pull} {curr : ℚ}
    (hne : pulls ≠ []) (hlt : select < curr + chanceSum pulls) :
    ∃ p, walk select pulls curr = some p := by
  induction pulls generalizing curr with
  | nil => exact absurd rfl hne
  | cons q rest ih =>
    rw [walk]
    by_cases hq : curr + q.chance > select
    · exact ⟨q, if_pos hq⟩
    · rw [if_neg hq]
      rcases List.eq_nil_or_concat rest with hrest | _
      · subst hrest
        rw [chanceSum_cons] at hlt
        simp [chanceSum] at hlt
        exact absurd hlt (by simpa using hq)
      · apply ih
        · rintro rfl
          simp at *
        · rw [chanceSum_cons] at hlt
          linarith

/-- The loop returns the entry at the least index whose running weight total
strictly exceeds `select`, offset by the initial accumulator `curr`. -/
theorem walk_first {select : ℚ} {pulls : List Pull} {curr : ℚ} {p : Pull}
    (h : walk select pulls curr = some p) :
    ∃ i, ∃ hi : i < pulls.length, p = pulls.get ⟨i, hi⟩ ∧
      select < curr + chanceSum (pulls.take (i + 1)) ∧
      ∀ j < i, curr + chanceSum (pulls.take (j + 1)) ≤ select := by
  induction pulls generalizing curr with
  | nil => exact absurd h (by simp [walk])
  | cons q rest ih =>
    rw [walk] at h
    split at h
    · next hq =>
      cases h
      refine ⟨0, by simp, rfl, ?_, ?_⟩
      · simpa [List.take_succ_cons, chanceSum_cons, chanceSum] using hq
      · intro j hj
        exact absurd hj (Nat.not_lt_zero j)
    · next hq =>
      obtain ⟨i, hi, hpe, hgt, hmin⟩ := ih h
      refine ⟨i + 1, by simpa using Nat.succ_lt_succ hi, by simpa using hpe,
        ?_, ?_⟩
      · rw [List.take_succ_cons, chanceSum_cons]
        linarith
      · intro j hj
        cases j with
        | zero =>
          rw [List.take_succ_cons, List.take_zero, chanceSum_cons]
          simp only [chanceSum, List.map_nil, List.sum_nil, add_zero]
          exact le_of_not_lt hq
        | succ j2 =>
          have hj2 : j2 < i := by omega
          have := hmin j2 hj2
          rw [List.take_succ_cons, chanceSum_cons]
          linarith

theorem pull_eq_samplePull {pl : PullList} (tierRoll : Nat) (select : ℚ)
    (now : Int) (hne : pl.list ≠ []) (hrr : pl.rare_rarity ≠ 0) :
    pl.pull tierRoll select now =
      samplePull pl (pl.chosenPulls tierRoll) (pl.chosenType tierRoll)
        select now := by
  rw [PullList.pull]
  rw [if_neg (by simp [List.isEmpty_iff, hne])]
  rw [if_neg (by simp [hrr])]

/-- Master lemma for successful draws: with a non-empty catalog, positive
weights, a non-degenerate pity denominator and `select` inside the sampled
range, `pull` returns some entry of the selected subset and only appends to
the history. -/
theorem pull_ok {pl : PullList} (tierRoll : Nat) {select : ℚ} (now : Int)
    (hne : pl.list ≠ []) (hw : ∀ p ∈ pl.list, 0 < p.chance)
    (hrr : pl.rare_rarity ≠ 0)
    (hsel : select < chanceSum (pl.chosenPulls tierRoll)) :
    ∃ p, pl.pull tierRoll select now =
        (Except.ok p,
          { pl with pull_history :=
              pl.pull_history.update (pl.chosenType tierRoll) p.name now }) ∧
      p ∈ pl.chosenPulls tierRoll := by
  have hcne : pl.chosenPulls tierRoll ≠ [] := chosenPulls_ne_nil tierRoll hne
  have hsum : 0 < chanceSum (pl.chosenPulls tierRoll) :=
    chanceSum_pos hcne fun p hp => hw p (mem_chosenPulls hp)
  obtain ⟨p, hp⟩ := walk_isSome hcne (by rw [zero_add]; exact hsel)
  refine ⟨p, ?_, walk_mem hp⟩
  rw [pull_eq_samplePull tierRoll select now hne hrr]
  rw [samplePull, if_neg (not_le.mpr hsum), hp]

/-- A small two-entry catalog used to instantiate theorems at concrete
inputs. -/
def sampleCatalog : PullList :=
  { list := [{ name := "Sword", pull_type := PullType.Common, chance := 1 },
             { name := "Gem", pull_type := PullType.Rare, chance := 1 }],
    pull_history := PullHistory.new 35, rare_rarity := 100 }

/-- A catalog whose only entry breaks the weight-positivity invariant. -/
def zeroWeightCatalog : PullList :=
  { list := [{ name := "Husk", pull_type := PullType.Common, chance := 0 }],
    pull_history := PullHistory.new 35, rare_rarity := 100 }

/-- C1: for a non-empty catalog with positive weights and the pity roll
drawn from `[0, pity_denominator)`, a draw succeeds and its entry is Rare
exactly when the Rare subset is non-empty and (the Common subset is empty,
or the roll is 0, or the window holds no Rare record); in particular, with
a Rare entry present and no Rare record in the window, the drawn entry is
Rare for every roll and every in-range sampling value. -/
theorem spec_C1 (pl : PullList) (tierRoll : Nat) (select : ℚ) (now : Int)
    (hne : pl.list ≠ []) (hw : ∀ p ∈ pl.list, 0 < p.chance)
    (hroll : tierRoll < pl.rare_rarity) (hsel0 : 0 ≤ select)
    (hsel : select < chanceSum (pl.chosenPulls tierRoll)) :
    ∃ p pl2, pl.pull tierRoll select now = (Except.ok p, pl2) ∧
      (p.pull_type = PullType.Rare ↔
        (pl.commonRare.2 ≠ [] ∧ (pl.commonRare.1 = [] ∨ tierRoll = 0 ∨
          pl.pull_history.contains PullType.Rare = false))) := by
  have hrr : pl.rare_rarity ≠ 0 := by omega
  obtain ⟨p, hp, hmem⟩ := pull_ok tierRoll now hne hw hrr hsel
  refine ⟨p, _, hp, ?_⟩
  rw [← chooseRare_iff]
  by_cases hc : pl.chooseRare tierRoll
  · rw [PullList.chosenPulls, if_pos hc] at hmem
    simp [(mem_commonRare_snd hmem).2, hc]
  · rw [PullList.chosenPulls, if_neg hc] at hmem
    have hcb : pl.chooseRare tierRoll = false := by simpa using hc
    rw [(mem_commonRare_fst hmem).2, hcb]
    simp

theorem spec_C1_witness :
    ∃ p pl2, sampleCatalog.pull 1 0 0 = (Except.ok p, pl2) ∧
      (p.pull_type = PullType.Rare ↔
        (sampleCatalog.commonRare.2 ≠ [] ∧
          (sampleCatalog.commonRare.1 = [] ∨ (1 : Nat) = 0 ∨
            sampleCatalog.pull_history.contains PullType.Rare = false))) :=
  spec_C1 sampleCatalog 1 0 0 (by decide) (by decide) (by decide)
    (by decide)
    (by
      have h : sampleCatalog.chosenPulls 1 =
          [{ name := "Gem", pull_type := PullType.Rare, chance := 1 }] := rfl
      rw [h]
      norm_num [chanceSum])

/-- C2: for `select` sampled in `[0, subset_sum)`, the cumulative-weight
walk returns the entry at the least index whose running total strictly
exceeds `select` — in particular it returns some entry — and consequently
the `unreachable!()` path after the loop in `pull` is never taken for
in-range samples. -/
theorem spec_C2 (pulls : List Pull) (select : ℚ)
    (hsel0 : 0 ≤ select) (hsel : select < chanceSum pulls) :
    (∃ i, ∃ hi : i < pulls.length,
        walk select pulls 0 = some (pulls.get ⟨i, hi⟩) ∧
        select < chanceSum (pulls.take (i + 1)) ∧
        ∀ j < i, chanceSum (pulls.take (j + 1)) ≤ select) ∧
      ∀ (pl : PullList) (tierRoll : Nat) (now : Int),
        pl.list ≠ [] → pl.rare_rarity ≠ 0 →
          pl.chosenPulls tierRoll = pulls →
          (pl.pull tierRoll select now).1 ≠
            Except.error PullError.unreachableState := by
  have hne : pulls ≠ [] := by
    rintro rfl
    simp [chanceSum] at hsel
    linarith
  obtain ⟨p, hp⟩ := walk_isSome hne (by rw [zero_add]; exact hsel)
  obtain ⟨i, hi, hpe, hgt, hmin⟩ := walk_first hp
  constructor
  · refine ⟨i, hi, ?_, by simpa using hgt,
      fun j hj => by simpa using hmin j hj⟩
    rw [hp, hpe]
  · intro pl tierRoll now hne2 hrr hch
    rw [pull_eq_samplePull tierRoll select now hne2 hrr, samplePull, hch]
    rw [if_neg (by intro hle; linarith), hp]
    simp

theorem spec_C2_witness :
    (∃ i, ∃ hi : i < sampleCatalog.list.length,
        walk 0 sampleCatalog.list 0 = some (sampleCatalog.list.get ⟨i, hi⟩) ∧
        (0 : ℚ) < chanceSum (sampleCatalog.list.take (i + 1)) ∧
        ∀ j < i, chanceSum (sampleCatalog.list.take (j + 1)) ≤ 0) ∧
      ∀ (pl : PullList) (tierRoll : Nat) (now : Int),
        pl.list ≠ [] → pl.rare_rarity ≠ 0 →
          pl.chosenPulls tierRoll = sampleCatalog.list →
          (pl.pull tierRoll 0 now).1 ≠
            Except.error PullError.unreachableState :=
  spec_C2 sampleCatalog.list 0 (by decide)
    (by norm_num [chanceSum, sampleCatalog])

/-- C4: when the selected subset has a non-positive weight sum, the sampling
range `[0, pulls_sum)` is empty and `pull` surfaces the broken weight
invariant as an explicit error, leaving the catalog untouched, instead of
returning an arbitrary entry. -/
theorem spec_C4 (pl : PullList) (tierRoll : Nat) (select : ℚ) (now : Int)
    (hne : pl.list ≠ []) (hrr : pl.rare_rarity ≠ 0)
    (hcne : pl.chosenPulls tierRoll ≠ [])
    (hsum : chanceSum (pl.chosenPulls tierRoll) ≤ 0) :
    pl.pull tierRoll select now =
      (Except.error PullError.invariantViolation, pl) := by
  rw [pull_eq_samplePull tierRoll select now hne hrr, samplePull,
    if_pos hsum]

theorem spec_C4_witness :
    zeroWeightCatalog.pull 1 0 0 =
      (Except.error PullError.invariantViolation, zeroWeightCatalog) :=
  spec_C4 zeroWeightCatalog 1 0 0 (by decide) (by decide) (by decide)
    (by
      have h : zeroWeightCatalog.chosenPulls 1 =
          [{ name := "Husk", pull_type := PullType.Common, chance := 0 }] := rfl
      rw [h]
      norm_num [chanceSum])

/-- C6: drawing from an empty catalog signals the empty-catalog outcome and
returns the state unchanged: no entry, history or pity field is touched. -/
theorem spec_C6 (pl : PullList) (tierRoll : Nat) (select : ℚ) (now : Int)
    (h : pl.list = []) :
    pl.pull tierRoll select now = (Except.error PullError.emptyCatalog, pl) := by
  rw [PullList.pull, if_pos (by simp [h, List.isEmpty_iff])]

theorem spec_C6_witness :
    PullList.new.pull 0 0 0 =
      (Except.error PullError.emptyCatalog, PullList.new) :=
  spec_C6 PullList.new 0 0 0 rfl

/-- C7: a successful draw returns an entry of the catalog (with its stored
name, tier and weight), leaves the entry sequence and the pity denominator
unchanged, and mutates only the history window (by one update call). -/
theorem spec_C7 (pl : PullList) (tierRoll : Nat) (select : ℚ) (now : Int)
    (hne : pl.list ≠ []) (hw : ∀ p ∈ pl.list, 0 < p.chance)
    (hroll : tierRoll < pl.rare_rarity) (hsel0 : 0 ≤ select)
    (hsel : select < chanceSum (pl.chosenPulls tierRoll)) :
    ∃ p pl2, pl.pull tierRoll select now = (Except.ok p, pl2) ∧
      p ∈ pl.list ∧ pl2.list = pl.list ∧
      pl2.rare_rarity = pl.rare_rarity ∧
      pl2.pull_history =
        pl.pull_history.update (pl.chosenType tierRoll) p.name now := by
  have hrr : pl.rare_rarity ≠ 0 := by omega
  obtain ⟨p, hp, hmem⟩ := pull_ok tierRoll now hne hw hrr hsel
  exact ⟨p, _, hp, mem_chosenPulls hmem, rfl, rfl, rfl⟩

theorem spec_C7_witness :
    ∃ p pl2, sampleCatalog.pull 5 0 0 = (Except.ok p, pl2) ∧
      p ∈ sampleCatalog.list ∧ pl2.list = sampleCatalog.list ∧
      pl2.rare_rarity = sampleCatalog.rare_rarity ∧
      pl2.pull_history =
        sampleCatalog.pull_history.update (sampleCatalog.chosenType 5)
          p.name 0 :=
  spec_C7 sampleCatalog 5 0 0 (by decide) (by decide) (by decide)
    (by decide)
    (by
      have h : sampleCatalog.chosenPulls 5 =
          [{ name := "Gem", pull_type := PullType.Rare, chance := 1 }] := rfl
      rw [h]
      norm_num [chanceSum])

/-- Decomposition of a list around the first entry whose name matches,
relating `findIdx?`, indexing and `eraseIdx` as used by `PullList.remove`. -/
theorem findIdx_decomp (name : String) (l : List Pull) (p : Pull)
    (hp : p ∈ l) (hname : p.name = name) :
    ∃ p2 l₁ l₂, l = l₁ ++ p2 :: l₂ ∧ p2.name = name ∧
      (∀ q ∈ l₁, q.name ≠ name) ∧
      l.findIdx? (fun pull => pull.name == name) = some l₁.length ∧
      l[l₁.length]? = some p2 ∧ l.eraseIdx l₁.length = l₁ ++ l₂ := by
  induction l with
  | nil => cases hp
  | cons a l ih =>
    by_cases ha : a.name = name
    · refine ⟨a, [], l, rfl, ha, by simp, ?_, by simp, by simp⟩
      rw [List.findIdx?_cons, if_pos (by simp [ha])]
      simp
    · have hp2 : p ∈ l := by
        cases hp with
        | head => exact absurd hname ha
        | tail _ h => exact h
      obtain ⟨p2, l₁, l₂, hdec, hnm, hl₁, hfind, hget, herase⟩ := ih hp2
      refine ⟨p2, a :: l₁, l₂, by rw [hdec]; rfl, hnm, ?_, ?_, ?_, ?_⟩
      · intro q hq
        cases hq with
        | head => exact ha
        | tail _ h => exact hl₁ q h
      · rw [List.findIdx?_cons, if_neg (by simp [ha]), List.findIdx?_succ,
          hfind]
        rfl
      · simpa using hget
      · rw [List.length_cons, List.eraseIdx_cons_succ, herase]
        rfl

/-- C5: `remove` deletes exactly the first entry carrying the requested
name, returns it, shrinks the catalog by one without reordering the
remaining entries, and on a missing name returns `none` with the catalog
completely unchanged. -/
theorem spec_C5 (pl : PullList) (name : String) :
    ((∀ q ∈ pl.list, q.name ≠ name) → pl.remove name = (none, pl)) ∧
      (∀ p ∈ pl.list, p.name = name →
        ∃ p2 l₁ l₂, pl.list = l₁ ++ p2 :: l₂ ∧ p2.name = name ∧
          (∀ q ∈ l₁, q.name ≠ name) ∧
          pl.remove name = (some p2, { pl with list := l₁ ++ l₂ }) ∧
          (l₁ ++ l₂).length + 1 = pl.list.length) := by
  constructor
  · intro habs
    have hfind : pl.list.findIdx? (fun pull => pull.name == name) = none := by
      rw [List.findIdx?_eq_none_iff]
      intro x hx
      simpa using habs x hx
    rw [PullList.remove]
    rw [hfind]
  · intro p hp hname
    obtain ⟨p2, l₁, l₂, hdec, hnm, hl₁, hfind, hget, herase⟩ :=
      findIdx_decomp name pl.list p hp hname
    refine ⟨p2, l₁, l₂, hdec, hnm, hl₁, ?_, ?_⟩
    · rw [PullList.remove, hfind]
      dsimp only
      rw [hget, herase]
    · rw [hdec]
      simp only [List.length_append, List.length_cons]
      omega

theorem spec_C5_witness :
    ∃ p2 l₁ l₂, sampleCatalog.list = l₁ ++ p2 :: l₂ ∧ p2.name = "Gem" ∧
      (∀ q ∈ l₁, q.name ≠ "Gem") ∧
      sampleCatalog.remove "Gem" =
        (some p2, { sampleCatalog with list := l₁ ++ l₂ }) ∧
      (l₁ ++ l₂).length + 1 = sampleCatalog.list.length :=
  (spec_C5 sampleCatalog "Gem").2
    { name := "Gem", pull_type := PullType.Rare, chance := 1 }
    (by simp [sampleCatalog]) rfl

/-- Modelled from the spec: the JSON-like value space of the persisted
snapshot.  The concrete textual encoding (serde_json) is outside the engine
sources; this inductive stands for parsed JSON values, with numbers as
exact rationals. -/
inductive Json where
  | str (s : String)
  | num (q : ℚ)
  | arr (elements : List Json)
  | obj (fields : List (String × Json))

/-- Modelled from the spec: encoding of a `PullType` as the snapshot tier
string. -/
def encodeTier : PullType → Json
  | PullType.Common => Json.str "Common"
  | PullType.Rare => Json.str "Rare"

def decodeTier : Json → Option PullType
  | Json.str "Common" => some PullType.Common
  | Json.str "Rare" => some PullType.Rare
  | _ => none

def decodeInt : Json → Option Int
  | Json.num q => if q.den = 1 then some q.num else none
  | _ => none

def decodeNat : Json → Option Nat
  | Json.num q => if q.den = 1 ∧ 0 ≤ q.num then some q.num.toNat else none
  | _ => none

/-- Modelled from the spec: one catalog entry of the snapshot,
`(name, tier, weight)`. -/
def encodeEntry (p : Pull) : Json :=
  Json.obj [("name", Json.str p.name), ("tier", encodeTier p.pull_type),
    ("weight", Json.num p.chance)]

def decodeEntry : Json → Option Pull
  | Json.obj [("name", Json.str n), ("tier", t), ("weight", Json.num w)] =>
    (decodeTier t).bind fun pt =>
      some { name := n, pull_type := pt, chance := w }
  | _ => none

/-- Modelled from the spec: one history record of the snapshot,
`(timestamp, tier, name)`, with the timestamp as integer ticks. -/
def encodeRecord (r : Int × PullType × String) : Json :=
  Json.obj [("timestamp", Json.num (r.1 : ℚ)), ("tier", encodeTier r.2.1),
    ("name", Json.str r.2.2)]

def decodeRecord : Json → Option (Int × PullType × String)
  | Json.obj [("timestamp", ts), ("tier", t), ("name", Json.str n)] =>
    (decodeInt ts).bind fun i => (decodeTier t).bind fun pt => some (i, pt, n)
  | _ => none

def decodeList {α : Type} (f : Json → Option α) : List Json → Option (List α)
  | [] => some []
  | j :: rest =>
    (f j).bind fun a => (decodeList f rest).bind fun as => some (a :: as)

/-- Modelled from the spec: the `history` object of the snapshot, window
plus capacity. -/
def encodeHistory (h : PullHistory) : Json :=
  Json.obj [("window", Json.arr (h.history.map encodeRecord)),
    ("capacity", Json.num (h.size : ℚ))]

def decodeHistory : Json → Option PullHistory
  | Json.obj [("window", Json.arr ws), ("capacity", cap)] =>
    (decodeList decodeRecord ws).bind fun hist =>
      (decodeNat cap).bind fun c => some { history := hist, size := c }
  | _ => none

/-- Modelled from the spec: the whole snapshot shape —
entries, history and pity denominator. -/
def encodePullList (pl : PullList) : Json :=
  Json.obj [("entries", Json.arr (pl.list.map encodeEntry)),
    ("history", encodeHistory pl.pull_history),
    ("pity_denominator", Json.num (pl.rare_rarity : ℚ))]

def decodePullList : Json → Option PullList
  | Json.obj [("entries", Json.arr es), ("history", h),
      ("pity_denominator", d)] =>
    (decodeList decodeEntry es).bind fun entries =>
      (decodeHistory h).bind fun ph =>
        (decodeNat d).bind fun r =>
          some { list := entries, pull_history := ph, rare_rarity := r }
  | _ => none

/-- The load failure of `PullList::load_from_json_file`. -/
inductive LoadError where
  | parseError
deriving DecidableEq

/-- Pure core of `PullList::load_from_json_file`: the textual parse outcome
of the file contents is injected as `Option Json` (`none` for malformed
JSON text); both a text-level and a shape-level failure propagate as the
explicit `parseError` value, mirroring the `?` operators. -/
def loadFromJson (contents : Option Json) : Except LoadError PullList :=
  match contents with
  | none => Except.error LoadError.parseError
  | some j =>
    match decodePullList j with
    | some pl => Except.ok pl
    | none => Except.error LoadError.parseError

theorem decodeTier_encode (t : PullType) :
    decodeTier (encodeTier t) = some t := by
  cases t <;> rfl

theorem decodeNat_encode (n : Nat) : decodeNat (Json.num (n : ℚ)) = some n := by
  rw [decodeNat]
  rw [if_pos ⟨Rat.den_natCast n, by simp [Rat.num_natCast]⟩]
  simp [Rat.num_natCast]

theorem decodeInt_encode (i : Int) : decodeInt (Json.num (i : ℚ)) = some i := by
  rw [decodeInt]
  rw [if_pos (Rat.den_intCast i)]
  simp [Rat.num_intCast]

theorem decodeEntry_encode (p : Pull) : decodeEntry (encodeEntry p) = some p := by
  rw [encodeEntry, decodeEntry, decodeTier_encode]
  rfl

theorem decodeRecord_encode (r : Int × PullType × String) :
    decodeRecord (encodeRecord r) = some r := by
  rw [encodeRecord, decodeRecord, decodeInt_encode, decodeTier_encode]
  rfl

theorem decodeList_map {α : Type} (f : Json → Option α) (g : α → Json)
    (hfg : ∀ x, f (g x) = some x) (l : List α) :
    decodeList f (l.map g) = some l := by
  induction l with
  | nil => rfl
  | cons a rest ih =>
    rw [List.map_cons, decodeList, hfg, ih]
    rfl

/-- C8: serializing a catalog snapshot and deserializing it reproduces the
catalog exactly: same entries in order (names, tiers, weights), same
history records and capacity, same pity denominator. -/
theorem spec_C8 (pl : PullList) :
    decodePullList (encodePullList pl) = some pl := by
  rw [encodePullList, encodeHistory, decodePullList,
    decodeList_map decodeEntry encodeEntry decodeEntry_encode,
    decodeNat_encode]
  rw [decodeHistory, decodeList_map decodeRecord encodeRecord
    decodeRecord_encode, decodeNat_encode]
  rfl

/-- C9: when the persisted snapshot fails to parse — malformed text or a
value of the wrong shape — the load surfaces the explicit parse-error
value; it never answers with a catalog, in particular never silently with
the empty one. -/
theorem spec_C9 (contents : Option Json)
    (h : contents = none ∨ ∃ j, contents = some j ∧ decodePullList j = none) :
    loadFromJson contents = Except.error LoadError.parseError ∧
      ∀ pl : PullList, loadFromJson contents ≠ Except.ok pl := by
  have hload : loadFromJson contents = Except.error LoadError.parseError := by
    rcases h with h | ⟨j, hj, hdec⟩
    · rw [h, loadFromJson]
    · rw [hj, loadFromJson, hdec]
  refine ⟨hload, fun pl hok => ?_⟩
  rw [hload] at hok
  cases hok

theorem spec_C9_witness :
    loadFromJson (some (Json.str "oops")) =
        Except.error LoadError.parseError ∧
      ∀ pl : PullList,
        loadFromJson (some (Json.str "oops")) ≠ Except.ok pl :=
  spec_C9 (some (Json.str "oops")) (Or.inr ⟨Json.str "oops", rfl, rfl⟩)

end Maigacha
